import Mathlib

/-!
Verification of the text-analytics scoring engine of `pranjal_assignment.py`
(Sentixtract): tokenization/cleaning, dictionary-based sentiment scoring,
readability metrics, and auxiliary lexical statistics.

Strings are embedded as `List Char`; Python floats are embedded as exact
rationals (`ℚ`); integer counts are `Nat`.  The external NLTK tokenizer
(`word_tokenize`) is not part of the repository; it is modelled from the
spec's description of standard word tokenization.  Python's `re.findall`
for the one regular expression actually occurring in the source is embedded
by a dedicated left-to-right scanner.
-/

/-! ## Character-level groundwork -/

theorem uint32_le_iff {a b : UInt32} : a ≤ b ↔ a.toNat ≤ b.toNat := by
  simp [UInt32.le_def, BitVec.le_def, UInt32.toNat]

theorem char_isUpper_iff {c : Char} : c.isUpper = true ↔ 65 ≤ c.toNat ∧ c.toNat ≤ 90 := by
  simp only [Char.isUpper, Bool.and_eq_true, decide_eq_true_eq, ge_iff_le, uint32_le_iff]
  rfl

theorem char_isLower_iff {c : Char} : c.isLower = true ↔ 97 ≤ c.toNat ∧ c.toNat ≤ 122 := by
  simp only [Char.isLower, Bool.and_eq_true, decide_eq_true_eq, ge_iff_le, uint32_le_iff]
  rfl

theorem char_isDigit_iff {c : Char} : c.isDigit = true ↔ 48 ≤ c.toNat ∧ c.toNat ≤ 57 := by
  simp only [Char.isDigit, Bool.and_eq_true, decide_eq_true_eq, ge_iff_le, uint32_le_iff]
  rfl

theorem char_isAlpha_iff {c : Char} :
    c.isAlpha = true ↔ (65 ≤ c.toNat ∧ c.toNat ≤ 90) ∨ (97 ≤ c.toNat ∧ c.toNat ≤ 122) := by
  simp only [Char.isAlpha, Bool.or_eq_true, char_isUpper_iff, char_isLower_iff]

theorem char_toNat_ofNat {n : Nat} (h : n.isValidChar) : (Char.ofNat n).toNat = n := by
  rw [Char.ofNat, dif_pos h]
  rfl

theorem char_toLower_eq (c : Char) :
    Char.toLower c = if 65 ≤ c.toNat ∧ c.toNat ≤ 90 then Char.ofNat (c.toNat + 32) else c := rfl

theorem char_toLower_toNat_of_upper {c : Char} (h : 65 ≤ c.toNat ∧ c.toNat ≤ 90) :
    (Char.toLower c).toNat = c.toNat + 32 := by
  rw [char_toLower_eq, if_pos h, char_toNat_ofNat]
  exact Or.inl (by omega)

theorem char_toLower_eq_self {c : Char} (h : ¬ (65 ≤ c.toNat ∧ c.toNat ≤ 90)) :
    Char.toLower c = c := by
  rw [char_toLower_eq, if_neg h]

theorem char_toLower_lower_range {c : Char} (h : c.isAlpha = true) :
    97 ≤ (Char.toLower c).toNat ∧ (Char.toLower c).toNat ≤ 122 := by
  rcases char_isAlpha_iff.mp h with hu | hl
  · rw [char_toLower_toNat_of_upper hu]; omega
  · rw [char_toLower_eq_self (by omega)]; exact hl

theorem char_toLower_isLower {c : Char} (h : c.isAlpha = true) :
    (Char.toLower c).isLower = true :=
  char_isLower_iff.mpr (char_toLower_lower_range h)

theorem char_toLower_isAlpha {c : Char} (h : c.isAlpha = true) :
    (Char.toLower c).isAlpha = true :=
  char_isAlpha_iff.mpr (Or.inr (char_toLower_lower_range h))

theorem char_toLower_fix {c : Char} (h : c.isLower = true) : Char.toLower c = c := by
  have := char_isLower_iff.mp h
  exact char_toLower_eq_self (by omega)

theorem char_toLower_idem (c : Char) : Char.toLower (Char.toLower c) = Char.toLower c := by
  by_cases h : 65 ≤ c.toNat ∧ c.toNat ≤ 90
  · exact char_toLower_eq_self (by rw [char_toLower_toNat_of_upper h]; omega)
  · rw [char_toLower_eq_self h]
    exact char_toLower_eq_self h

theorem char_toLower_ne_space {c : Char} (h : c.isAlpha = true) : Char.toLower c ≠ ' ' := by
  intro he
  have := char_toLower_lower_range h
  have h32 : (' ' : Char).toNat = 32 := rfl
  rw [he, h32] at this
  omega

/-- A `toLower`-image that is alphabetic is a lowercase letter. -/
theorem char_image_isLower {c d : Char} (he : c = Char.toLower d) (h : c.isAlpha = true) :
    c.isLower = true := by
  subst he
  by_cases hu : 65 ≤ d.toNat ∧ d.toNat ≤ 90
  · exact char_isLower_iff.mpr (by rw [char_toLower_toNat_of_upper hu]; omega)
  · rw [char_toLower_eq_self hu] at h ⊢
    rcases char_isAlpha_iff.mp h with h1 | h2
    · exact absurd h1 hu
    · exact char_isLower_iff.mpr h2

/-! ## Basic string predicates of the source -/

/-- Python's `str.isalpha()`: nonempty and every character alphabetic. -/
def pyIsAlpha (w : List Char) : Bool :=
  !w.isEmpty && w.all Char.isAlpha

/-- The lowercase vowel characters of the literal `'aeiou'` used throughout the source. -/
def vowelsLower : List Char := ['a', 'e', 'i', 'o', 'u']

/-- Python regex `\w` (word character) on the ASCII fragment: alphanumeric or underscore. -/
def isWordChar (c : Char) : Bool :=
  c.isAlphanum || c == '_'

/-- Python's `' '.join`: concatenate the words with a single space between them. -/
def joinSpace : List (List Char) → List Char
  | [] => []
  | [w] => w
  | w :: v :: ws => w ++ ' ' :: joinSpace (v :: ws)

/-! ## Tokenizer model -/

/-- Modelled from the spec: the external NLTK `word_tokenize` (absent from the
repository) splits text "using sentence/word boundary rules consistent with
standard natural-language tokenization (punctuation-aware)".  The model:
whitespace separates tokens and is discarded, a maximal run of alphanumeric
characters is one token, and every other character is a single-character
token. -/
def word_tokenize (s : List Char) : List (List Char) :=
  match s with
  | [] => []
  | c :: cs =>
    if c.isWhitespace then word_tokenize cs
    else if c.isAlphanum then
      (c :: cs.takeWhile Char.isAlphanum) :: word_tokenize (cs.dropWhile Char.isAlphanum)
    else [c] :: word_tokenize cs
termination_by s.length
decreasing_by
  · simp only [List.length_cons]; omega
  · simp only [List.length_cons]
    exact Nat.lt_succ_of_le (List.Sublist.length_le (List.dropWhile_sublist Char.isAlphanum))
  · simp only [List.length_cons]; omega

/-- `clean_and_tokenize` (source lines 93–95): lower-case the text, tokenize it,
and keep a token iff it is alphabetic and not a stop word. -/
def clean_and_tokenize (text : List Char) (stop_words : List (List Char)) : List (List Char) :=
  let words := word_tokenize (text.map Char.toLower)
  words.filter (fun word => pyIsAlpha word && !(decide (word ∈ stop_words)))

/-! ## Sentiment scorer -/

/-- The epsilon constant `0.000001` of the source, as an exact rational. -/
def sentimentEpsilon : ℚ := 1 / 1000000

structure SentimentScores where
  positive_score : Nat
  negative_score : Nat
  polarity_score : ℚ
  subjectivity_score : ℚ
  deriving Repr, DecidableEq

/-- `calculate_sentiment_scores` (source lines 112–118). -/
def calculate_sentiment_scores (words positive_words negative_words : List (List Char)) :
    SentimentScores :=
  let positive_score :=
    ((words.filter (fun word => decide (word ∈ positive_words))).map (fun _ => (1 : Nat))).sum
  let negative_score :=
    ((words.filter (fun word => decide (word ∈ negative_words))).map (fun _ => (1 : Nat))).sum
  let polarity_score : ℚ :=
    ((positive_score : ℚ) - (negative_score : ℚ)) /
      (((positive_score : ℚ) + (negative_score : ℚ)) + sentimentEpsilon)
  let subjectivity_score : ℚ :=
    ((positive_score : ℚ) + (negative_score : ℚ)) / ((words.length : ℚ) + sentimentEpsilon)
  ⟨positive_score, negative_score, polarity_score, subjectivity_score⟩

/-! ## Readability scorer -/

/-- The complex-word test of source line 143:
`len([char for char in word if char in 'aeiou']) > 2`.
Note the comparison is against the lowercase literal `'aeiou'` and the word is
taken from the raw (un-lowercased) tokenization. -/
def isComplexWord (word : List Char) : Bool :=
  decide (2 < (word.filter (fun char => decide (char ∈ vowelsLower))).length)

/-- Second definition following the spec's words, for comparison: "a word is
complex iff it contains more than two vowel characters (a,e,i,o,u),
case-insensitively". -/
def isComplexWordSpec (word : List Char) : Bool :=
  decide (2 < (word.filter (fun char => decide (Char.toLower char ∈ vowelsLower))).length)

structure ReadabilityScores where
  avg_sentence_length : ℚ
  percentage_complex_words : ℚ
  fog_index : ℚ
  complex_word_count : Nat
  num_words : Nat
  deriving Repr, DecidableEq

/-- `calculate_readability_scores` (source lines 136–148).  The external
sentence and word tokenizations of the raw text are taken as arguments
(`sentences = sent_tokenize text`, `words = word_tokenize text`); the body
from line 139 on is embedded directly. -/
def calculate_readability_scores (sentences words : List (List Char)) : ReadabilityScores :=
  let num_sentences := sentences.length
  let num_words := words.length
  let avg_sentence_length : ℚ :=
    if 0 < num_sentences then (num_words : ℚ) / (num_sentences : ℚ) else 0
  let complex_words := words.filter isComplexWord
  let percentage_complex_words : ℚ :=
    if 0 < num_words then (complex_words.length : ℚ) / (num_words : ℚ) else 0
  let fog_index : ℚ := (0.4 : ℚ) * (avg_sentence_length + percentage_complex_words)
  ⟨avg_sentence_length, percentage_complex_words, fog_index, complex_words.length, num_words⟩

/-! ## Regex scanner for `\b(I|we|my|ours|us)\b` with `re.I` -/

/-- The alternatives of the regex literal on source line 167, in order. -/
def pronounPats : List (List Char) :=
  [['I'], ['w', 'e'], ['m', 'y'], ['o', 'u', 'r', 's'], ['u', 's']]

/-- The same alternatives lower-cased, as the canonical case-insensitive forms. -/
def lowPronouns : List (List Char) :=
  [['i'], ['w', 'e'], ['m', 'y'], ['o', 'u', 'r', 's'], ['u', 's']]

/-- Case-insensitive prefix test: does `p` match the start of `s` under `re.I`? -/
def ciPref : List Char → List Char → Bool
  | [], _ => true
  | _ :: _, [] => false
  | p :: ps, c :: cs => (Char.toLower p == Char.toLower c) && ciPref ps cs

/-- The regex `\b` test at the start of `s`, where `prev` records whether the
character immediately before `s` is a word character (`false` at the start of
the haystack).  At the very end of the haystack `\b` holds iff the previous
character is a word character. -/
def boundary (prev : Bool) (s : List Char) : Bool :=
  match s with
  | [] => prev
  | c :: _ => prev != isWordChar c

/-- Does the alternative `p` match at the current position?  Requires `\b`
before the match, a case-insensitive occurrence of `p`, and `\b` after it
(every character of every alternative is a word character, so after a match
the "previous character is a word character" flag is `true`). -/
def matchHere (prev : Bool) (s : List Char) (p : List Char) : Bool :=
  boundary prev s && ciPref p s && boundary true (s.drop p.length)

/-- First alternative of the regex that matches at the current position,
in the order of the pattern, as `re` tries them. -/
def tryMatch (prev : Bool) (s : List Char) : Option (List Char) :=
  if matchHere prev s ['I'] then some ['I']
  else if matchHere prev s ['w', 'e'] then some ['w', 'e']
  else if matchHere prev s ['m', 'y'] then some ['m', 'y']
  else if matchHere prev s ['o', 'u', 'r', 's'] then some ['o', 'u', 'r', 's']
  else if matchHere prev s ['u', 's'] then some ['u', 's']
  else none

/-- Models `re.findall` for the pattern of source line 167: scan left to
right; on a match count it and resume immediately after it (alternatives are
nonempty, and their last character is a letter, so the resumed `prev` flag is
`true`); otherwise advance one character. -/
def scanPronoun (s : List Char) (prev : Bool) : Nat :=
  match s with
  | [] => 0
  | c :: cs =>
    match tryMatch prev (c :: cs) with
    | some p => 1 + scanPronoun (cs.drop (p.length - 1)) true
    | none => scanPronoun cs (isWordChar c)
termination_by s.length
decreasing_by
  · simp only [List.length_cons]
    have := List.length_drop (p.length - 1) cs
    omega
  · simp only [List.length_cons]; omega

/-! ## Lexical stats scorer -/

structure AdditionalScores where
  syllable_count : Nat
  personal_pronouns : Nat
  avg_word_length : ℚ
  avg_syllables_per_word : ℚ
  deriving Repr, DecidableEq

/-- `calculate_additional_scores` (source lines 166–171).  Line 166 counts, per
word, the matches of the regex `[aeiou]`, i.e. the characters that are
lowercase vowels; line 167 runs `re.findall` of the pronoun pattern over the
space-joined word list. -/
def calculate_additional_scores (words : List (List Char)) : AdditionalScores :=
  let syllable_count :=
    (words.map (fun word => (word.filter (fun c => decide (c ∈ vowelsLower))).length)).sum
  let personal_pronouns := scanPronoun (joinSpace words) false
  let avg_word_length : ℚ :=
    if words.isEmpty then 0
    else ((words.map List.length).sum : ℚ) / ((words.length : ℚ))
  let avg_syllables_per_word : ℚ :=
    if words.isEmpty then 0 else (syllable_count : ℚ) / ((words.length : ℚ))
  ⟨syllable_count, personal_pronouns, avg_word_length, avg_syllables_per_word⟩

/-! ## Helper lemmas -/

theorem sum_map_one {α : Type} (l : List α) : (l.map (fun _ => (1 : Nat))).sum = l.length := by
  induction l with
  | nil => rfl
  | cons a l ih => simp [ih, Nat.add_comm]

theorem positive_score_eq (words positive_words negative_words : List (List Char)) :
    (calculate_sentiment_scores words positive_words negative_words).positive_score =
      words.countP (fun word => decide (word ∈ positive_words)) := by
  simp [calculate_sentiment_scores, sum_map_one, List.countP_eq_length_filter]

theorem negative_score_eq (words positive_words negative_words : List (List Char)) :
    (calculate_sentiment_scores words positive_words negative_words).negative_score =
      words.countP (fun word => decide (word ∈ negative_words)) := by
  simp [calculate_sentiment_scores, sum_map_one, List.countP_eq_length_filter]

theorem epsilon_pos : (0 : ℚ) < sentimentEpsilon := by norm_num [sentimentEpsilon]

/-! ## Claim C3: the sentiment formulas -/

/-- C3: for every cleaned-word list and positive/negative word sets, the
sentiment scorer returns `posScore` = number of tokens in `positiveWords`,
`negScore` = number of tokens in `negativeWords`,
`polarity = (posScore − negScore) / (posScore + negScore + 1e-6)` and
`subjectivity = (posScore + negScore) / (length + 1e-6)`. -/
theorem sentiment_scores_spec (words positive_words negative_words : List (List Char)) :
    calculate_sentiment_scores words positive_words negative_words =
      { positive_score := words.countP (fun word => decide (word ∈ positive_words))
        negative_score := words.countP (fun word => decide (word ∈ negative_words))
        polarity_score :=
          ((words.countP (fun word => decide (word ∈ positive_words)) : ℚ) -
              (words.countP (fun word => decide (word ∈ negative_words)) : ℚ)) /
            ((words.countP (fun word => decide (word ∈ positive_words)) : ℚ) +
              (words.countP (fun word => decide (word ∈ negative_words)) : ℚ) + 1 / 1000000)
        subjectivity_score :=
          ((words.countP (fun word => decide (word ∈ positive_words)) : ℚ) +
              (words.countP (fun word => decide (word ∈ negative_words)) : ℚ)) /
            ((words.length : ℚ) + 1 / 1000000) } := by
  simp [calculate_sentiment_scores, sum_map_one, List.countP_eq_length_filter, sentimentEpsilon]

/-! ## Claim C1: bounds on polarity and subjectivity -/

/-- C1 counterexample: the claim asserts `subjectivity_score ≤ 1` for every
word list and every pair of dictionaries, but when a word belongs to both
dictionaries the subjectivity score exceeds 1.  The word list `["good"]` is a
genuine cleaned-word list (cleaning the text `"good"` with no stop words
produces it). -/
theorem subjectivity_above_one_cex :
    clean_and_tokenize ['g', 'o', 'o', 'd'] [] = [['g', 'o', 'o', 'd']] ∧
      1 < (calculate_sentiment_scores [['g', 'o', 'o', 'd']] [['g', 'o', 'o', 'd']]
            [['g', 'o', 'o', 'd']]).subjectivity_score := by
  constructor
  · simp [clean_and_tokenize, word_tokenize, pyIsAlpha]
  · norm_num [calculate_sentiment_scores, sentimentEpsilon]

/-- C1 (amended): the polarity score always lies in `[-1, 1]` and the
subjectivity score is always nonnegative; the subjectivity score is at most 1
whenever `posScore + negScore ≤ len(words)` (which can fail only when some
word of the list lies in both dictionaries). -/
theorem sentiment_score_bounds (words positive_words negative_words : List (List Char)) :
    -1 ≤ (calculate_sentiment_scores words positive_words negative_words).polarity_score ∧
    (calculate_sentiment_scores words positive_words negative_words).polarity_score ≤ 1 ∧
    0 ≤ (calculate_sentiment_scores words positive_words negative_words).subjectivity_score ∧
    ((calculate_sentiment_scores words positive_words negative_words).positive_score +
        (calculate_sentiment_scores words positive_words negative_words).negative_score ≤
          words.length →
      (calculate_sentiment_scores words positive_words negative_words).subjectivity_score ≤ 1) := by
  simp only [calculate_sentiment_scores]
  set p := ((words.filter (fun word => decide (word ∈ positive_words))).map
    (fun _ => (1 : Nat))).sum with hp
  set n := ((words.filter (fun word => decide (word ∈ negative_words))).map
    (fun _ => (1 : Nat))).sum with hn
  have hpq : (0 : ℚ) ≤ (p : ℚ) := Nat.cast_nonneg p
  have hnq : (0 : ℚ) ≤ (n : ℚ) := Nat.cast_nonneg n
  have hε := epsilon_pos
  have hd : (0 : ℚ) < (p : ℚ) + (n : ℚ) + sentimentEpsilon := by linarith
  have hl : (0 : ℚ) < (words.length : ℚ) + sentimentEpsilon := by
    have : (0 : ℚ) ≤ (words.length : ℚ) := Nat.cast_nonneg _
    linarith
  refine ⟨?_, ?_, ?_, ?_⟩
  · rw [le_div_iff₀ hd]; linarith
  · rw [div_le_one hd]; linarith
  · exact div_nonneg (by linarith) (le_of_lt hl)
  · intro hle
    rw [div_le_one hl]
    have : ((p + n : Nat) : ℚ) ≤ ((words.length : Nat) : ℚ) := Nat.cast_le.mpr hle
    push_cast at this
    linarith

/-- Witness for `sentiment_score_bounds` at a concrete input with disjoint
dictionaries. -/
theorem sentiment_score_bounds_w :
    -1 ≤ (calculate_sentiment_scores [['g', 'o', 'o', 'd']] [['g', 'o', 'o', 'd']]
            [['b', 'a', 'd']]).polarity_score ∧
    (calculate_sentiment_scores [['g', 'o', 'o', 'd']] [['g', 'o', 'o', 'd']]
            [['b', 'a', 'd']]).polarity_score ≤ 1 ∧
    0 ≤ (calculate_sentiment_scores [['g', 'o', 'o', 'd']] [['g', 'o', 'o', 'd']]
            [['b', 'a', 'd']]).subjectivity_score ∧
    (calculate_sentiment_scores [['g', 'o', 'o', 'd']] [['g', 'o', 'o', 'd']]
            [['b', 'a', 'd']]).subjectivity_score ≤ 1 := by
  obtain ⟨h1, h2, h3, h4⟩ :=
    sentiment_score_bounds [['g', 'o', 'o', 'd']] [['g', 'o', 'o', 'd']] [['b', 'a', 'd']]
  exact ⟨h1, h2, h3, h4 (by decide)⟩

/-! ## Claim C9: count bounds -/

/-- C9: the positive and negative scores are each at most the length of the
cleaned-word list, the complex-word count is at most the word count, and all
four are non-negative integers (they are `Nat`s in this embedding). -/
theorem count_bounds (words positive_words negative_words sentences rawWords : List (List Char)) :
    (calculate_sentiment_scores words positive_words negative_words).positive_score ≤
        words.length ∧
    (calculate_sentiment_scores words positive_words negative_words).negative_score ≤
        words.length ∧
    (calculate_readability_scores sentences rawWords).complex_word_count ≤
        (calculate_readability_scores sentences rawWords).num_words ∧
    0 ≤ (calculate_sentiment_scores words positive_words negative_words).positive_score ∧
    0 ≤ (calculate_sentiment_scores words positive_words negative_words).negative_score ∧
    0 ≤ (calculate_readability_scores sentences rawWords).complex_word_count ∧
    0 ≤ (calculate_readability_scores sentences rawWords).num_words := by
  refine ⟨?_, ?_, ?_, Nat.zero_le _, Nat.zero_le _, Nat.zero_le _, Nat.zero_le _⟩
  · rw [positive_score_eq]
    exact List.countP_le_length _
  · rw [negative_score_eq]
    exact List.countP_le_length _
  · simp only [calculate_readability_scores]
    exact List.length_filter_le _ _

/-! ## Claim C7: syllable count -/

/-- C7 counterexample: the claim's example asserts that the single word
`"beautiful"` yields `syllableCount = 4`, but `"beautiful"` contains five
vowel occurrences (e, a, u, i, u), and the scorer returns 5. -/
theorem syllable_count_beautiful_cex :
    (calculate_additional_scores
        [['b', 'e', 'a', 'u', 't', 'i', 'f', 'u', 'l']]).syllable_count = 5 ∧
    (calculate_additional_scores
        [['b', 'e', 'a', 'u', 't', 'i', 'f', 'u', 'l']]).syllable_count ≠ 4 := by
  constructor
  · decide
  · decide

/-- C7 (amended): `syllableCount` is the total number of occurrences of the
vowel characters a, e, i, o, u summed over all words of the list (every
occurrence counted, not distinct vowel groups); the single word
`"beautiful"`, with vowel occurrences e, a, u, i, u, yields 5. -/
theorem syllable_count_spec (words : List (List Char)) :
    (calculate_additional_scores words).syllable_count =
      (words.map (fun word => word.countP (fun c => decide (c ∈ vowelsLower)))).sum ∧
    (calculate_additional_scores
        [['b', 'e', 'a', 'u', 't', 'i', 'f', 'u', 'l']]).syllable_count = 5 := by
  constructor
  · simp [calculate_additional_scores, List.countP_eq_length_filter]
  · decide

/-! ## Claim C8: zero-token inputs degrade to zero -/

/-- C8: on a text that tokenizes to zero sentences and zero words the
readability scorer returns all-zero metrics (no division by zero), and the
lexical-stats scorer on an empty cleaned-word list returns zero average word
length and zero average syllables per word. -/
theorem empty_input_zero_scores :
    calculate_readability_scores [] [] =
      { avg_sentence_length := 0, percentage_complex_words := 0, fog_index := 0,
        complex_word_count := 0, num_words := 0 } ∧
    (calculate_additional_scores []).avg_word_length = 0 ∧
    (calculate_additional_scores []).avg_syllables_per_word = 0 := by
  refine ⟨?_, by decide, by decide⟩
  simp only [calculate_readability_scores, ReadabilityScores.mk.injEq, List.length_nil,
    List.filter_nil]
  norm_num

/-! ## Claim C2: complex-word classification -/

/-- C2 counterexample: the claim says vowels are counted case-insensitively,
but line 143 compares the characters of the raw (un-lowercased) tokens against
the lowercase literal `'aeiou'`.  The word `"AEIou"` has five vowels
case-insensitively (so the claim classifies it complex) but only two lowercase
vowels, and the scorer does not count it as complex. -/
theorem complex_word_case_cex :
    (calculate_readability_scores [['A', 'E', 'I', 'o', 'u']]
        [['A', 'E', 'I', 'o', 'u']]).complex_word_count = 0 ∧
    isComplexWordSpec ['A', 'E', 'I', 'o', 'u'] = true ∧
    isComplexWord ['A', 'E', 'I', 'o', 'u'] = false := by
  refine ⟨?_, by decide, by decide⟩
  decide

/-- C2 (amended): the readability scorer classifies a word as complex iff it
contains strictly more than two lowercase vowel characters (a, e, i, o, u);
the comparison is case-sensitive, so uppercase vowels in the raw tokens are
not counted, and an all-uppercase word is never complex. -/
theorem complex_word_spec (sentences words : List (List Char)) :
    (calculate_readability_scores sentences words).complex_word_count =
      words.countP (fun word => decide (2 < word.countP (fun c => decide (c ∈ vowelsLower)))) ∧
    (∀ word : List Char, (∀ c ∈ word, c.isUpper = true) → isComplexWord word = false) := by
  constructor
  · unfold calculate_readability_scores isComplexWord
    simp [List.countP_eq_length_filter]
  · intro word hw
    have hnil : word.filter (fun char => decide (char ∈ vowelsLower)) = [] := by
      rw [List.filter_eq_nil_iff]
      intro c hc
      have hcu := char_isUpper_iff.mp (hw c hc)
      have hv : ∀ d ∈ vowelsLower, 97 ≤ d.toNat ∧ d.toNat ≤ 122 := by decide
      simp only [decide_eq_true_eq]
      intro hmem
      have := hv c hmem
      omega
    simp [isComplexWord, hnil]

/-- Witness for `complex_word_spec` at concrete inputs. -/
theorem complex_word_spec_w :
    (calculate_readability_scores [['H', 'i']] [['H', 'i']]).complex_word_count =
      [['H', 'i']].countP
        (fun word => decide (2 < word.countP (fun c => decide (c ∈ vowelsLower)))) ∧
    isComplexWord ['A', 'B', 'E', 'I', 'O', 'U'] = false :=
  ⟨(complex_word_spec [['H', 'i']] [['H', 'i']]).1,
    (complex_word_spec [['H', 'i']] [['H', 'i']]).2 ['A', 'B', 'E', 'I', 'O', 'U'] (by decide)⟩

/-! ## Claim C4: the cleaning filter -/

/-- C4: a token of the lower-cased tokenized text appears in the output of
`clean_and_tokenize` iff it consists entirely of alphabetic characters and is
not a stop word, and the output preserves the left-to-right order of the
surviving tokens (it is a sublist of the token sequence). -/
theorem clean_and_tokenize_spec (text : List Char) (stop_words : List (List Char)) :
    (∀ word : List Char,
      word ∈ clean_and_tokenize text stop_words ↔
        word ∈ word_tokenize (text.map Char.toLower) ∧ pyIsAlpha word = true ∧
          word ∉ stop_words) ∧
    (clean_and_tokenize text stop_words).Sublist (word_tokenize (text.map Char.toLower)) := by
  constructor
  · intro word
    simp [clean_and_tokenize, List.mem_filter, and_assoc]
  · exact List.filter_sublist _

/-! ## Tokenizer lemmas -/

theorem char_isAlphanum_iff {c : Char} :
    c.isAlphanum = true ↔
      (48 ≤ c.toNat ∧ c.toNat ≤ 57) ∨ (65 ≤ c.toNat ∧ c.toNat ≤ 90) ∨
        (97 ≤ c.toNat ∧ c.toNat ≤ 122) := by
  simp only [Char.isAlphanum, Bool.or_eq_true, char_isAlpha_iff, char_isDigit_iff]
  tauto

theorem alnum_not_ws {c : Char} (h : c.isAlphanum = true) : c.isWhitespace = false := by
  have hr := char_isAlphanum_iff.mp h
  simp only [Char.isWhitespace, Bool.or_eq_false_iff, decide_eq_false_iff_not]
  refine ⟨⟨⟨?_, ?_⟩, ?_⟩, ?_⟩ <;> (intro he; subst he; exact absurd hr (by decide))

theorem takeWhile_all_append {p : Char → Bool} {w : List Char} (x : Char) (r : List Char)
    (hw : ∀ c ∈ w, p c = true) (hx : p x = false) :
    (w ++ x :: r).takeWhile p = w := by
  induction w with
  | nil => simp [List.takeWhile_cons, hx]
  | cons a w ih =>
    rw [List.cons_append, List.takeWhile_cons, if_pos (hw a (List.mem_cons_self a w)),
      ih (fun c hc => hw c (List.mem_cons_of_mem a hc))]

theorem dropWhile_all_append {p : Char → Bool} {w : List Char} (x : Char) (r : List Char)
    (hw : ∀ c ∈ w, p c = true) (hx : p x = false) :
    (w ++ x :: r).dropWhile p = x :: r := by
  induction w with
  | nil => simp [List.dropWhile_cons, hx]
  | cons a w ih =>
    rw [List.cons_append, List.dropWhile_cons, if_pos (hw a (List.mem_cons_self a w)),
      ih (fun c hc => hw c (List.mem_cons_of_mem a hc))]

theorem takeWhile_all {p : Char → Bool} {w : List Char} (hw : ∀ c ∈ w, p c = true) :
    w.takeWhile p = w := by
  induction w with
  | nil => rfl
  | cons a w ih =>
    rw [List.takeWhile_cons, if_pos (hw a (List.mem_cons_self a w)),
      ih (fun c hc => hw c (List.mem_cons_of_mem a hc))]

theorem dropWhile_all {p : Char → Bool} {w : List Char} (hw : ∀ c ∈ w, p c = true) :
    w.dropWhile p = [] := by
  induction w with
  | nil => rfl
  | cons a w ih =>
    rw [List.dropWhile_cons, if_pos (hw a (List.mem_cons_self a w)),
      ih (fun c hc => hw c (List.mem_cons_of_mem a hc))]

/-- A nonempty all-alphanumeric token followed by a space is recovered whole. -/
theorem word_tokenize_token_space (w rest : List Char) (hne : w ≠ [])
    (hw : ∀ c ∈ w, c.isAlphanum = true) :
    word_tokenize (w ++ ' ' :: rest) = w :: word_tokenize rest := by
  cases w with
  | nil => exact absurd rfl hne
  | cons a w =>
    have ha := hw a (List.mem_cons_self a w)
    have hw' : ∀ c ∈ w, Char.isAlphanum c = true :=
      fun c hc => hw c (List.mem_cons_of_mem a hc)
    rw [List.cons_append, word_tokenize]
    simp only [alnum_not_ws ha, Bool.false_eq_true, if_false, ha, if_true]
    rw [takeWhile_all_append ' ' rest hw' (by decide),
      dropWhile_all_append ' ' rest hw' (by decide), word_tokenize]
    simp

/-- A nonempty all-alphanumeric token at the very end is recovered whole. -/
theorem word_tokenize_token_nil (w : List Char) (hne : w ≠ [])
    (hw : ∀ c ∈ w, c.isAlphanum = true) :
    word_tokenize w = [w] := by
  cases w with
  | nil => exact absurd rfl hne
  | cons a w =>
    have ha := hw a (List.mem_cons_self a w)
    have hw' : ∀ c ∈ w, Char.isAlphanum c = true :=
      fun c hc => hw c (List.mem_cons_of_mem a hc)
    rw [word_tokenize]
    simp only [alnum_not_ws ha, Bool.false_eq_true, if_false, ha, if_true]
    rw [takeWhile_all hw', dropWhile_all hw', word_tokenize]

/-- Tokenizing a space-join of nonempty all-alphanumeric words gives them back. -/
theorem word_tokenize_joinSpace (ws : List (List Char))
    (h : ∀ w ∈ ws, w ≠ [] ∧ ∀ c ∈ w, c.isAlphanum = true) :
    word_tokenize (joinSpace ws) = ws := by
  induction ws with
  | nil => rw [joinSpace, word_tokenize]
  | cons w ws ih =>
    cases ws with
    | nil =>
      rw [joinSpace]
      exact word_tokenize_token_nil w (h w (List.mem_cons_self w [])).1
        (h w (List.mem_cons_self w [])).2
    | cons v ws =>
      rw [joinSpace, word_tokenize_token_space w _ (h w (List.mem_cons_self w _)).1
        (h w (List.mem_cons_self w _)).2]
      rw [ih (fun u hu => h u (List.mem_cons_of_mem w hu))]

/-- Every character of every token comes from the tokenized text. -/
theorem word_tokenize_chars (s : List Char) :
    ∀ w ∈ word_tokenize s, ∀ c ∈ w, c ∈ s := by
  induction s using word_tokenize.induct with
  | case1 => intro w hw; rw [word_tokenize] at hw; simp at hw
  | case2 c cs hws ih =>
    intro w hw d hd
    rw [word_tokenize, if_pos hws] at hw
    exact List.mem_cons_of_mem c (ih w hw d hd)
  | case3 c cs hws ha ih =>
    intro w hw d hd
    rw [word_tokenize, if_neg hws, if_pos ha] at hw
    rcases List.mem_cons.mp hw with he | hm
    · subst he
      rcases List.mem_cons.mp hd with rfl | hdt
      · exact List.mem_cons_self d cs
      · exact List.mem_cons_of_mem c (List.takeWhile_subset Char.isAlphanum hdt)
    · exact List.mem_cons_of_mem c
        (List.dropWhile_subset Char.isAlphanum (ih w hm d hd))
  | case4 c cs hws ha ih =>
    intro w hw d hd
    rw [word_tokenize, if_neg hws, if_neg ha] at hw
    rcases List.mem_cons.mp hw with he | hm
    · subst he
      rcases List.mem_cons.mp hd with rfl | hdt
      · exact List.mem_cons_self d cs
      · simp at hdt
    · exact List.mem_cons_of_mem c (ih w hm d hd)

/-- Every character of a space-join is a space or a character of some word. -/
theorem joinSpace_chars (ws : List (List Char)) :
    ∀ c ∈ joinSpace ws, c = ' ' ∨ ∃ w ∈ ws, c ∈ w := by
  induction ws with
  | nil => intro c hc; rw [joinSpace] at hc; simp at hc
  | cons w ws ih =>
    cases ws with
    | nil =>
      intro c hc
      rw [joinSpace] at hc
      exact Or.inr ⟨w, List.mem_cons_self w [], hc⟩
    | cons v ws =>
      intro c hc
      rw [joinSpace] at hc
      rcases List.mem_append.mp hc with hcw | hcr
      · exact Or.inr ⟨w, List.mem_cons_self w _, hcw⟩
      · rcases List.mem_cons.mp hcr with rfl | hcj
        · exact Or.inl rfl
        · rcases ih c hcj with hsp | ⟨u, hu, hcu⟩
          · exact Or.inl hsp
          · exact Or.inr ⟨u, List.mem_cons_of_mem w hu, hcu⟩

theorem char_alpha_alnum {c : Char} (h : c.isAlpha = true) : c.isAlphanum = true := by
  simp [Char.isAlphanum, h]

theorem pyIsAlpha_iff {w : List Char} :
    pyIsAlpha w = true ↔ w ≠ [] ∧ ∀ c ∈ w, c.isAlpha = true := by
  simp [pyIsAlpha, List.all_eq_true, List.isEmpty_iff]

theorem map_eq_self_of_fix {f : Char → Char} {l : List Char} (h : ∀ c ∈ l, f c = c) :
    l.map f = l := by
  induction l with
  | nil => rfl
  | cons a l ih =>
    rw [List.map_cons, h a (List.mem_cons_self a l),
      ih (fun c hc => h c (List.mem_cons_of_mem a hc))]

/-- Members of an output of `clean_and_tokenize` pass the filter and come from
the tokenization of the lower-cased text. -/
theorem clean_member_facts {text : List Char} {stop_words : List (List Char)} {w : List Char}
    (hw : w ∈ clean_and_tokenize text stop_words) :
    w ∈ word_tokenize (text.map Char.toLower) ∧ pyIsAlpha w = true ∧ w ∉ stop_words := by
  unfold clean_and_tokenize at hw
  refine ⟨List.mem_of_mem_filter hw, ?_⟩
  have hp := List.of_mem_filter hw
  rw [Bool.and_eq_true] at hp
  obtain ⟨h1, h2⟩ := hp
  rw [Bool.not_eq_true'] at h2
  exact ⟨h1, of_decide_eq_false h2⟩

/-- Characters of cleaned words are fixed by `toLower`. -/
theorem clean_member_chars_fixed {text : List Char} {stop_words : List (List Char)}
    {w : List Char} (hw : w ∈ clean_and_tokenize text stop_words) :
    ∀ c ∈ w, Char.toLower c = c := by
  intro c hc
  obtain ⟨hwt, hpa, _⟩ := clean_member_facts hw
  have hcm : c ∈ text.map Char.toLower := word_tokenize_chars _ w hwt c hc
  obtain ⟨d, _, hd⟩ := List.mem_map.mp hcm
  have hca : c.isAlpha = true := (pyIsAlpha_iff.mp hpa).2 c hc
  exact char_toLower_fix (char_image_isLower hd.symm hca)

/-! ## Claim C5: cleaning is idempotent -/

/-- C5: rejoining the cleaned word list with spaces and cleaning the result
with the same stop-word set yields exactly the original cleaned word list. -/
theorem clean_idempotent (text : List Char) (stop_words : List (List Char)) :
    clean_and_tokenize (joinSpace (clean_and_tokenize text stop_words)) stop_words =
      clean_and_tokenize text stop_words := by
  set cw := clean_and_tokenize text stop_words with hcw
  have hmem : ∀ w ∈ cw, pyIsAlpha w = true ∧ w ∉ stop_words :=
    fun w hw => (clean_member_facts (hcw ▸ hw)).2
  have hfix : ∀ w ∈ cw, ∀ c ∈ w, Char.toLower c = c :=
    fun w hw => clean_member_chars_fixed (hcw ▸ hw)
  have htok : ∀ w ∈ cw, w ≠ [] ∧ ∀ c ∈ w, c.isAlphanum = true := by
    intro w hw
    obtain ⟨hne, hall⟩ := pyIsAlpha_iff.mp (hmem w hw).1
    exact ⟨hne, fun c hc => char_alpha_alnum (hall c hc)⟩
  have hjoin : (joinSpace cw).map Char.toLower = joinSpace cw := by
    apply map_eq_self_of_fix
    intro c hc
    rcases joinSpace_chars cw c hc with rfl | ⟨w, hwm, hcw2⟩
    · decide
    · exact hfix w hwm c hcw2
  unfold clean_and_tokenize
  rw [hjoin, word_tokenize_joinSpace cw htok]
  apply List.filter_eq_self.mpr
  intro w hw
  rw [Bool.and_eq_true, Bool.not_eq_true']
  exact ⟨(hmem w hw).1, decide_eq_false (hmem w hw).2⟩

/-! ## Claim C10: stop-word comparison is case-sensitive -/

/-- C10: tokens are compared with the stop-word set by exact equality after
the text has been lower-cased, so stop-word entries that are not entirely
lowercase letters never remove anything: cleaning with `stop_words` equals
cleaning with only its all-lowercase entries. -/
theorem clean_stopword_case (text : List Char) (stop_words : List (List Char)) :
    clean_and_tokenize text stop_words =
      clean_and_tokenize text (stop_words.filter (fun e => e.all Char.isLower)) := by
  unfold clean_and_tokenize
  apply List.filter_congr
  intro w hw
  by_cases hpa : pyIsAlpha w = true
  · have hall : w.all Char.isLower = true := by
      rw [List.all_eq_true]
      intro c hc
      have hca : c.isAlpha = true := (pyIsAlpha_iff.mp hpa).2 c hc
      obtain ⟨d, _, hd⟩ := List.mem_map.mp (word_tokenize_chars _ w hw c hc)
      exact char_image_isLower hd.symm hca
    have : (w ∈ stop_words.filter (fun e => e.all Char.isLower)) ↔ w ∈ stop_words := by
      rw [List.mem_filter]
      exact ⟨fun h => h.1, fun h => ⟨h, hall⟩⟩
    simp [this]
  · rw [Bool.not_eq_true] at hpa
    rw [hpa]
    simp

/-! ## Pronoun-scanner lemmas -/

theorem char_alpha_isWordChar {c : Char} (h : c.isAlpha = true) : isWordChar c = true := by
  simp [isWordChar, char_alpha_alnum h]

/-- On an all-alphabetic token followed by nothing or a space, a
case-insensitive occurrence of an all-alphabetic pattern with a `\b` right
after it is exactly a case-insensitive match of the whole token. -/
theorem ciPref_boundary_token (p : List Char) :
    ∀ (w rest : List Char), (∀ c ∈ p, c.isAlpha = true) → (∀ c ∈ w, c.isAlpha = true) →
      (rest = [] ∨ ∃ r, rest = ' ' :: r) →
      ((ciPref p (w ++ rest) && boundary true ((w ++ rest).drop p.length)) = true ↔
        w.map Char.toLower = p.map Char.toLower) := by
  induction p with
  | nil =>
    intro w rest hp hw hr
    cases w with
    | nil =>
      rcases hr with rfl | ⟨r, rfl⟩
      · simp [ciPref, boundary]
      · simp [ciPref, boundary, isWordChar]
    | cons a w =>
      have ha := char_alpha_isWordChar (hw a (List.mem_cons_self a w))
      simp [ciPref, boundary, ha]
  | cons b p ih =>
    intro w rest hp hw hr
    have hb : b.isAlpha = true := hp b (List.mem_cons_self b p)
    cases w with
    | nil =>
      rcases hr with rfl | ⟨r, rfl⟩
      · simp [ciPref]
      · have hsp : Char.toLower ' ' = ' ' := by decide
        have hbne : (Char.toLower b == Char.toLower ' ') = false := by
          rw [hsp, beq_eq_false_iff_ne]
          exact char_toLower_ne_space hb
        simp [ciPref, hbne]
        intro hbsp
        exact absurd hbsp (char_toLower_ne_space hb)
    | cons a w =>
      have ha : a.isAlpha = true := hw a (List.mem_cons_self a w)
      have hih := ih w rest (fun c hc => hp c (List.mem_cons_of_mem b hc))
        (fun c hc => hw c (List.mem_cons_of_mem a hc)) hr
      simp only [List.cons_append, ciPref, List.length_cons, List.drop_succ_cons,
        List.map_cons, List.cons.injEq, List.append_eq]
      by_cases hba : Char.toLower b = Char.toLower a
      · have hbeq : (Char.toLower b == Char.toLower a) = true := beq_iff_eq.mpr hba
        rw [hbeq]
        simp only [Bool.true_and]
        rw [hih]
        constructor
        · intro hmap
          exact ⟨hba.symm, hmap⟩
        · intro hmap
          exact hmap.2
      · have hbeq : (Char.toLower b == Char.toLower a) = false :=
          beq_eq_false_iff_ne.mpr hba
        rw [hbeq]
        simp only [Bool.false_and, Bool.false_eq_true, false_iff, not_and]
        intro hab
        exact absurd hab.symm hba

/-- A pattern alternative matches at the start of a token (preceded by a
non-word position) iff it case-insensitively equals the whole token. -/
theorem matchHere_token {w rest p : List Char} (hne : w ≠ [])
    (hwa : ∀ c ∈ w, c.isAlpha = true) (hpa : ∀ c ∈ p, c.isAlpha = true)
    (hr : rest = [] ∨ ∃ r, rest = ' ' :: r) :
    matchHere false (w ++ rest) p = true ↔ w.map Char.toLower = p.map Char.toLower := by
  cases w with
  | nil => exact absurd rfl hne
  | cons a w =>
    have ha := char_alpha_isWordChar (hwa a (List.mem_cons_self a w))
    have hbnd : boundary false ((a :: w) ++ rest) = true := by
      simp [boundary, ha]
    unfold matchHere
    rw [hbnd, Bool.true_and]
    exact ciPref_boundary_token p (a :: w) rest hpa hwa hr

/-- The five alternatives, lower-cased. -/
theorem lowPronoun_chars : ∀ p ∈ pronounPats, ∀ c ∈ p, c.isAlpha = true := by decide

/-- The value of `tryMatch` at the start of an all-alphabetic token: the
matched alternative exists iff the lowered token is one of the five lowered
alternatives, and the match consumes exactly the token. -/
theorem tryMatch_token {w rest : List Char} (hne : w ≠ [])
    (hwa : ∀ c ∈ w, c.isAlpha = true) (hr : rest = [] ∨ ∃ r, rest = ' ' :: r) :
    (w.map Char.toLower ∈ lowPronouns ∧
      ∃ p, tryMatch false (w ++ rest) = some p ∧ p.length = w.length) ∨
    (w.map Char.toLower ∉ lowPronouns ∧ tryMatch false (w ++ rest) = none) := by
  have key : ∀ p ∈ pronounPats,
      (matchHere false (w ++ rest) p = true ↔ w.map Char.toLower = p.map Char.toLower) :=
    fun p hp => matchHere_token hne hwa (lowPronoun_chars p hp) hr
  have h1 := key ['I'] (by decide)
  have h2 := key ['w', 'e'] (by decide)
  have h3 := key ['m', 'y'] (by decide)
  have h4 := key ['o', 'u', 'r', 's'] (by decide)
  have h5 := key ['u', 's'] (by decide)
  have e1 : List.map Char.toLower ['I'] = ['i'] := by decide
  have e2 : List.map Char.toLower ['w', 'e'] = ['w', 'e'] := by decide
  have e3 : List.map Char.toLower ['m', 'y'] = ['m', 'y'] := by decide
  have e4 : List.map Char.toLower ['o', 'u', 'r', 's'] = ['o', 'u', 'r', 's'] := by decide
  have e5 : List.map Char.toLower ['u', 's'] = ['u', 's'] := by decide
  rw [e1] at h1; rw [e2] at h2; rw [e3] at h3; rw [e4] at h4; rw [e5] at h5
  have hlen : (w.map Char.toLower).length = w.length := List.length_map w Char.toLower
  by_cases c1 : w.map Char.toLower = ['i']
  · refine Or.inl ⟨by rw [c1]; decide, ['I'], ?_, by rw [← hlen, c1]; rfl⟩
    unfold tryMatch
    rw [if_pos (h1.mpr c1)]
  · by_cases c2 : w.map Char.toLower = ['w', 'e']
    · refine Or.inl ⟨by rw [c2]; decide, ['w', 'e'], ?_, by rw [← hlen, c2]⟩
      unfold tryMatch
      rw [if_neg (fun hm => c1 (h1.mp hm)), if_pos (h2.mpr c2)]
    · by_cases c3 : w.map Char.toLower = ['m', 'y']
      · refine Or.inl ⟨by rw [c3]; decide, ['m', 'y'], ?_, by rw [← hlen, c3]⟩
        unfold tryMatch
        rw [if_neg (fun hm => c1 (h1.mp hm)), if_neg (fun hm => c2 (h2.mp hm)),
          if_pos (h3.mpr c3)]
      · by_cases c4 : w.map Char.toLower = ['o', 'u', 'r', 's']
        · refine Or.inl ⟨by rw [c4]; decide, ['o', 'u', 'r', 's'], ?_, by rw [← hlen, c4]⟩
          unfold tryMatch
          rw [if_neg (fun hm => c1 (h1.mp hm)), if_neg (fun hm => c2 (h2.mp hm)),
            if_neg (fun hm => c3 (h3.mp hm)), if_pos (h4.mpr c4)]
        · by_cases c5 : w.map Char.toLower = ['u', 's']
          · refine Or.inl ⟨by rw [c5]; decide, ['u', 's'], ?_, by rw [← hlen, c5]⟩
            unfold tryMatch
            rw [if_neg (fun hm => c1 (h1.mp hm)), if_neg (fun hm => c2 (h2.mp hm)),
              if_neg (fun hm => c3 (h3.mp hm)), if_neg (fun hm => c4 (h4.mp hm)),
              if_pos (h5.mpr c5)]
          · refine Or.inr ⟨?_, ?_⟩
            · intro hmem
              simp only [lowPronouns, List.mem_cons, List.not_mem_nil, or_false] at hmem
              rcases hmem with hm | hm | hm | hm | hm
              · exact c1 hm
              · exact c2 hm
              · exact c3 hm
              · exact c4 hm
              · exact c5 hm
            · unfold tryMatch
              rw [if_neg (fun hm => c1 (h1.mp hm)), if_neg (fun hm => c2 (h2.mp hm)),
                if_neg (fun hm => c3 (h3.mp hm)), if_neg (fun hm => c4 (h4.mp hm)),
                if_neg (fun hm => c5 (h5.mp hm))]

theorem scanPronoun_nil (prev : Bool) : scanPronoun [] prev = 0 := by
  rw [scanPronoun]

theorem scanPronoun_cons_some {c : Char} {cs p : List Char} {prev : Bool}
    (h : tryMatch prev (c :: cs) = some p) :
    scanPronoun (c :: cs) prev = 1 + scanPronoun (cs.drop (p.length - 1)) true := by
  rw [scanPronoun, h]

theorem scanPronoun_cons_none {c : Char} {cs : List Char} {prev : Bool}
    (h : tryMatch prev (c :: cs) = none) :
    scanPronoun (c :: cs) prev = scanPronoun cs (isWordChar c) := by
  rw [scanPronoun, h]

/-- No alternative matches at a word character that is preceded by a word
character: the leading `\b` fails. -/
theorem tryMatch_wordhead {c : Char} {s : List Char} (h : isWordChar c = true) :
    tryMatch true (c :: s) = none := by
  have hm : ∀ p, matchHere true (c :: s) p = false := by
    intro p
    simp only [matchHere, boundary, h]
    simp
  unfold tryMatch
  simp [hm]

/-- Scanning skips over word characters whenever the previous character was a
word character. -/
theorem scan_skip (w rest : List Char) (hw : ∀ c ∈ w, isWordChar c = true) :
    scanPronoun (w ++ rest) true = scanPronoun rest true := by
  induction w with
  | nil => rfl
  | cons a w ih =>
    have ha := hw a (List.mem_cons_self a w)
    rw [List.cons_append, scanPronoun_cons_none (tryMatch_wordhead ha), ha]
    exact ih (fun c hc => hw c (List.mem_cons_of_mem a hc))

/-- No alternative matches at a space: the first pattern character is a letter. -/
theorem tryMatch_space {r : List Char} (prev : Bool) :
    tryMatch prev (' ' :: r) = none := by
  have hm : ∀ p c, p.isAlpha = true → ciPref (p :: c) (' ' :: r) = false := by
    intro p c hp
    unfold ciPref
    have : (Char.toLower p == Char.toLower ' ') = false := by
      have hsp : Char.toLower ' ' = ' ' := by decide
      rw [hsp, beq_eq_false_iff_ne]
      exact char_toLower_ne_space hp
    rw [this, Bool.false_and]
  have h1 := hm 'I' [] (by decide)
  have h2 := hm 'w' ['e'] (by decide)
  have h3 := hm 'm' ['y'] (by decide)
  have h4 := hm 'o' ['u', 'r', 's'] (by decide)
  have h5 := hm 'u' ['s'] (by decide)
  unfold tryMatch matchHere
  rw [h1, h2, h3, h4, h5]
  simp

/-- Scanning a space after a word continues with the boundary flag cleared. -/
theorem scan_space (r : List Char) (prev : Bool) :
    scanPronoun (' ' :: r) prev = scanPronoun r false := by
  rw [scanPronoun_cons_none (tryMatch_space prev)]
  have : isWordChar ' ' = false := by decide
  rw [this]

/-- Scanning one all-alphabetic token (followed by nothing or by a space)
contributes 1 exactly when the lowered token is one of the five pronoun
alternatives, then resumes after the token. -/
theorem scan_token (w rest : List Char) (hne : w ≠ []) (hwa : ∀ c ∈ w, c.isAlpha = true)
    (hr : rest = [] ∨ ∃ r, rest = ' ' :: r) :
    scanPronoun (w ++ rest) false =
      (if w.map Char.toLower ∈ lowPronouns then 1 else 0) + scanPronoun rest true := by
  rcases tryMatch_token hne hwa hr with ⟨hmem, p, hp, hplen⟩ | ⟨hmem, hnone⟩
  · cases w with
    | nil => exact absurd rfl hne
    | cons a w =>
      rw [List.cons_append] at hp ⊢
      rw [scanPronoun_cons_some hp]
      have hlen1 : p.length - 1 = w.length := by rw [hplen]; rfl
      rw [hlen1, List.drop_left w rest, if_pos hmem]
  · cases w with
    | nil => exact absurd rfl hne
    | cons a w =>
      rw [List.cons_append] at hnone ⊢
      rw [scanPronoun_cons_none hnone]
      have ha := char_alpha_isWordChar (hwa a (List.mem_cons_self a w))
      rw [ha, scan_skip w rest
        (fun c hc => char_alpha_isWordChar (hwa c (List.mem_cons_of_mem a hc))),
        if_neg hmem, Nat.zero_add]

/-- The full scan of a space-joined list of nonempty all-alphabetic words
counts exactly the words whose lowered form is a pronoun alternative. -/
theorem scan_join (ws : List (List Char))
    (h : ∀ w ∈ ws, w ≠ [] ∧ ∀ c ∈ w, c.isAlpha = true) :
    scanPronoun (joinSpace ws) false =
      ws.countP (fun w => decide (w.map Char.toLower ∈ lowPronouns)) := by
  induction ws with
  | nil => rw [joinSpace, scanPronoun_nil, List.countP_nil]
  | cons w ws ih =>
    obtain ⟨hne, hwa⟩ := h w (List.mem_cons_self w ws)
    have hrest := fun u hu => h u (List.mem_cons_of_mem w hu)
    cases ws with
    | nil =>
      rw [joinSpace]
      have hst := scan_token w [] hne hwa (Or.inl rfl)
      rw [List.append_nil] at hst
      rw [hst, scanPronoun_nil, List.countP_cons, List.countP_nil]
      by_cases hm : w.map Char.toLower ∈ lowPronouns
      · rw [if_pos hm, if_pos (decide_eq_true hm)]
      · rw [if_neg hm, if_neg (by simp [hm])]
    | cons v ws =>
      rw [joinSpace, scan_token w (' ' :: joinSpace (v :: ws)) hne hwa
          (Or.inr ⟨joinSpace (v :: ws), rfl⟩),
        scan_space, ih hrest]
      by_cases hm : w.map Char.toLower ∈ lowPronouns
      · rw [if_pos hm, List.countP_cons_of_pos
          (fun u => decide (List.map Char.toLower u ∈ lowPronouns)) (v :: ws)
          (by simpa using hm)]
        omega
      · rw [if_neg hm, List.countP_cons_of_neg
          (fun u => decide (List.map Char.toLower u ∈ lowPronouns)) (v :: ws)
          (by simpa using hm), Nat.zero_add]

/-! ## Claim C6: personal pronoun count -/

/-- C6: for a cleaned-word list (nonempty, all-alphabetic tokens),
`personalPronounCount` — the number of case-insensitive whole-word
(`\b`-delimited) matches of I, we, my, ours, us in the space-joined cleaned
text — equals the number of tokens that case-insensitively equal one of the
five pronouns; in particular a pronoun embedded inside a longer word (such as
"my" inside "myself") is never counted. -/
theorem personal_pronoun_spec (words : List (List Char))
    (h : ∀ w ∈ words, w ≠ [] ∧ ∀ c ∈ w, c.isAlpha = true) :
    (calculate_additional_scores words).personal_pronouns =
      words.countP (fun w => decide (w.map Char.toLower ∈ lowPronouns)) := by
  have hproj : (calculate_additional_scores words).personal_pronouns =
      scanPronoun (joinSpace words) false := rfl
  rw [hproj]
  exact scan_join words h

/-- Witness for `personal_pronoun_spec` on the spec's example
"i love us and myself": the matches are "i" and "us", and "myself" does not
match "my". -/
theorem personal_pronoun_spec_w :
    (∀ w ∈ [['i'], ['l', 'o', 'v', 'e'], ['u', 's'], ['a', 'n', 'd'],
        ['m', 'y', 's', 'e', 'l', 'f']], w ≠ [] ∧ ∀ c ∈ w, c.isAlpha = true) ∧
    (calculate_additional_scores [['i'], ['l', 'o', 'v', 'e'], ['u', 's'], ['a', 'n', 'd'],
        ['m', 'y', 's', 'e', 'l', 'f']]).personal_pronouns = 2 := by
  refine ⟨by decide, ?_⟩
  rw [personal_pronoun_spec _ (by decide)]
  decide
